import Mathlib

/-
Verification of the secret-detection-and-masking subsystem
(claudecode/secret_detector.py) against its specification.

Strings are modelled as lists of characters.  Python's `str.count`,
`str.replace` and the `in` operator are embedded as `countOccs`,
`replaceAll` and `containsSub`, with the same leftmost, non-overlapping
semantics.  The replace/count recursions consume at least one character
per step; they are driven by a fuel argument initialised to the length
of the string, which makes them structurally recursive; the fuel is
never exhausted on the wrappers, so the fuel-zero clause (which returns
the remaining input unchanged) is never reached.
-/

namespace SecretDetector

abbrev Str := List Char

/-- Python `s.startswith(pat)` at the head of a list: `pat` is a prefix of `s`. -/
def startsW : Str → Str → Bool
  | [], _ => true
  | _ :: _, [] => false
  | p :: ps, c :: cs => p == c && startsW ps cs

/-- Whitespace characters removed by Python `str.strip()` (ASCII range). -/
def isPySpace (c : Char) : Bool :=
  c == ' ' || c == '\t' || c == '\n' || c == '\r' || c == '\x0b' || c == '\x0c'

/-- Python `str.strip()`: drop leading and trailing whitespace. -/
def pyStrip (s : Str) : Str :=
  ((s.dropWhile isPySpace).reverse.dropWhile isPySpace).reverse

/-- Fuel-driven core of Python `str.count` (non-overlapping, leftmost). -/
def countOccsGo : Nat → Str → Str → Nat
  | 0, _, _ => 0
  | _ + 1, [], _ => 0
  | n + 1, c :: cs, pat =>
    if !pat.isEmpty && startsW pat (c :: cs) then
      1 + countOccsGo n ((c :: cs).drop pat.length) pat
    else
      countOccsGo n cs pat

/-- Python `s.count(pat)` for non-empty `pat`: number of non-overlapping
leftmost occurrences of `pat` in `s`. -/
def countOccs (s pat : Str) : Nat := countOccsGo s.length s pat

/-- Fuel-driven core of Python `str.replace` (all non-overlapping leftmost
occurrences replaced). -/
def replaceAllGo : Nat → Str → Str → Str → Str
  | 0, s, _, _ => s
  | _ + 1, [], _, _ => []
  | n + 1, c :: cs, pat, rep =>
    if !pat.isEmpty && startsW pat (c :: cs) then
      rep ++ replaceAllGo n ((c :: cs).drop pat.length) pat rep
    else
      c :: replaceAllGo n cs pat rep

/-- Python `s.replace(pat, rep)` for non-empty `pat`. -/
def replaceAll (s pat rep : Str) : Str := replaceAllGo s.length s pat rep

/-- Python `pat in s`: `pat` occurs as a contiguous substring of `s`. -/
def containsSub : Str → Str → Bool
  | [], pat => pat.isEmpty
  | c :: cs, pat => startsW pat (c :: cs) || containsSub cs pat

/-! ## Finding records and normalization

A raw gitleaks report record (a JSON object).  A field holds `none` when
the corresponding key is absent from the record.  The source reads the
capitalized keys `RuleID`, `File`, `Secret`, `Match`, `StartLine` and the
lowercase keys `rule`, `file`, `secret`, `line`; a lowercase `match` key
(modelled as `match_lc`, since `match` is reserved in Lean) can be present
in a record but is never consulted by the source. -/

structure RawFinding where
  RuleID : Option Str := none
  rule : Option Str := none
  File : Option Str := none
  file : Option Str := none
  Secret : Option Str := none
  secret : Option Str := none
  Match : Option Str := none
  match_lc : Option Str := none
  StartLine : Option Int := none
  line : Option Int := none
deriving DecidableEq

def unknownStr : Str := "unknown".data

/-- `secret.get('RuleID', secret.get('rule', 'unknown'))` (lines 167 and 224). -/
def ruleOf (f : RawFinding) : Str := f.RuleID.getD (f.rule.getD unknownStr)

/-- `secret.get('File', secret.get('file', 'unknown'))` (line 168). -/
def fileOf (f : RawFinding) : Str := f.File.getD (f.file.getD unknownStr)

/-- `secret.get('Secret', secret.get('secret', ''))` (lines 169 and 223). -/
def secretValueOf (f : RawFinding) : Str := f.Secret.getD (f.secret.getD [])

/-- `secret.get('Match', '')` (line 170): only the capitalized key is tried. -/
def matchOf (f : RawFinding) : Str := f.Match.getD []

/-- The normalized line value is an integer or the literal string `'unknown'`. -/
inductive PyLineVal
  | ofInt (n : Int)
  | unknownVal
deriving DecidableEq

/-- `secret.get('StartLine', secret.get('line', 'unknown'))` (line 171). -/
def lineOf (f : RawFinding) : PyLineVal :=
  match f.StartLine with
  | some n => .ofInt n
  | none =>
    match f.line with
    | some n => .ofInt n
    | none => .unknownVal

/-! ## The masking engine (`_apply_file_based_masking`, lines 218-250) -/

/-- The token actually substituted into the text (line 236). -/
def placeholder : Str := "[SENSITIVE_DATA_REMOVED]".data

/-- The token recorded in the redaction log and counted by the final
summary (lines 244, 67-68); it differs from `placeholder` in the source. -/
def redactedLabel : Str := "[REDACTED_SECRET]".data

/-- The guard `if secret_value and len(secret_value.strip()) > 0` (line 226):
the value is truthy (non-empty) and not whitespace-only. -/
def pyGuard (s : Str) : Bool := !s.isEmpty && !(pyStrip s).isEmpty

/-- One element of the `redacted_secrets` list (lines 240-245). -/
structure RedactedEntry where
  rule : Str
  original : Str
  occurrences : Nat
  replaced_with : Str
deriving DecidableEq

/-- The state produced by the masking loop: the masked text,
`total_replacements`, and the `redacted_secrets` list. -/
structure MaskState where
  masked : Str
  total_replacements : Nat
  redacted : List RedactedEntry
deriving DecidableEq

/-- The loop of `_apply_file_based_masking` (lines 222-250): for each
finding in report order, count occurrences of its secret value in the
current content, replace them all with `placeholder`, and record an entry;
findings with empty or whitespace-only secret values are skipped. -/
def maskList (content : Str) : List RawFinding → MaskState
  | [] => ⟨content, 0, []⟩
  | f :: fs =>
    if pyGuard (secretValueOf f) then
      ⟨(maskList (replaceAll content (secretValueOf f) placeholder) fs).masked,
        countOccs content (secretValueOf f)
          + (maskList (replaceAll content (secretValueOf f) placeholder) fs).total_replacements,
        ⟨ruleOf f, secretValueOf f, countOccs content (secretValueOf f), redactedLabel⟩
          :: (maskList (replaceAll content (secretValueOf f) placeholder) fs).redacted⟩
    else
      maskList content fs

/-! ## The orchestration layer

`detect_and_mask_secrets` and `_run_gitleaks_detect` interact with the
filesystem and an external subprocess.  Those effects are embedded through
a `World` oracle fixing the outcome of each effectful step of one call:
whether the engine probe succeeds, whether the write into the temporary
input file succeeds, how the detect subprocess ends, what the report file
on disk holds, whether the masking step's file read (and its fallback
re-read) succeed, and whether each `os.unlink` succeeds.  Every `except`
clause of the source catches the corresponding failures, so the embedded
functions are total; diagnostic `_log` calls at WARNING/ERROR level are
recorded as events (INFO-level diagnostics are not modelled). -/

inductive LogLevel
  | info
  | warning
  | error
deriving DecidableEq

inductive LogSite
  | noDiffContent
  | gitleaksUnavailable
  | errorDuringDetection
  | cleanupTempFailed
  | cleanupReportFailed
  | scanTimedOut
  | errorRunningGitleaks
  | reportParseFailed
  | maskingError
  | maskingFallbackReadError
deriving DecidableEq

structure LogEvent where
  level : LogLevel
  site : LogSite
deriving DecidableEq

/-- How the `subprocess.run` of `gitleaks detect` ends when it raises. -/
inductive ScanRaise
  | timeoutExpired
  | otherExc
deriving DecidableEq

/-- The state of the report file on disk after the detect subprocess step. -/
inductive ReportState
  | absent
  | emptyFile
  | invalidJson
  | valid (findings : List RawFinding)
deriving DecidableEq

/-- Outcome oracle for one call to `detect_and_mask_secrets`. -/
structure World where
  available : Bool
  writeOk : Bool
  scanRaise : Option ScanRaise
  report : ReportState
  maskReadOk : Bool
  maskRereadOk : Bool
  unlinkTempOk : Bool
  unlinkReportOk : Bool
  reportPathId : Nat
deriving DecidableEq

/-- Whether the report file exists on disk after the detect step. -/
def reportOnDisk (w : World) : Bool :=
  match w.report with
  | .absent => false
  | _ => true

/-- The timeout passed to the detect subprocess (line 142). -/
def gitleaksDetectTimeoutSeconds : Nat := 30

/-- Result of `_run_gitleaks_detect`: the findings list, the report path
allocated by `tempfile.mktemp` at entry, and the WARNING/ERROR diagnostics. -/
structure RunResult where
  findings : List RawFinding
  reportPath : Nat
  log : List LogEvent
deriving DecidableEq

/-- `_run_gitleaks_detect` (lines 121-198).  The report path is allocated at
entry (line 130); a timeout or any other exception from the subprocess is
caught and yields `([], report_file)` (lines 193-198); an absent or
zero-length report yields `([], report_file)` (lines 186-191); a JSON parse
failure yields `([], report_file)` (lines 183-185); otherwise the decoded
list is returned as `secrets if secrets else []` (line 182). -/
def runGitleaksDetect (w : World) : RunResult :=
  let rp := w.reportPathId
  match w.scanRaise with
  | some .timeoutExpired => ⟨[], rp, [⟨.warning, .scanTimedOut⟩]⟩
  | some .otherExc => ⟨[], rp, [⟨.error, .errorRunningGitleaks⟩]⟩
  | none =>
    match w.report with
    | .absent => ⟨[], rp, []⟩
    | .emptyFile => ⟨[], rp, []⟩
    | .invalidJson => ⟨[], rp, [⟨.error, .reportParseFailed⟩]⟩
    | .valid fs => ⟨if fs.isEmpty then [] else fs, rp, []⟩

/-- `_apply_file_based_masking` (lines 200-279) as seen from the caller:
if the read of the temporary file succeeds the masking loop runs on the
file content; on any exception the fallback re-reads the original file
(returning the unmodified content), and if that re-read also fails the
function returns the empty string (line 279). -/
def applyFileBasedMasking (w : World) (content : Str) (secrets : List RawFinding) :
    Str × List LogEvent :=
  if w.maskReadOk then
    ((maskList content secrets).masked, [])
  else if w.maskRereadOk then
    (content, [⟨.error, .maskingError⟩])
  else
    ([], [⟨.error, .maskingError⟩, ⟨.error, .maskingFallbackReadError⟩])

/-- The final summary logged by `detect_and_mask_secrets` when secrets were
found (lines 64-68): sizes, whether `'[REDACTED_SECRET]'` occurs in the
masked content, and how often it occurs.  On the no-findings path the
source logs the literal values No and 0 (lines 73-77). -/
structure DetectSummary where
  originalSize : Nat
  maskedSize : Nat
  secretsDetectedReported : Bool
  redactionCountReported : Nat
deriving DecidableEq

/-- Observable outcome of one call to `detect_and_mask_secrets`: the
returned text, whether the temporary input file and the report file still
exist after the `finally` block, the logged summary, and the
WARNING/ERROR diagnostics. -/
structure DetectResult where
  output : Str
  tempExists : Bool
  reportExists : Bool
  summary : Option DetectSummary
  log : List LogEvent
deriving DecidableEq

/-- The `finally` block (lines 83-97): each deletion failure is an
`OSError`, caught and logged as a WARNING. -/
def cleanupLog (w : World) : List LogEvent :=
  (if !w.unlinkTempOk then [⟨.warning, .cleanupTempFailed⟩] else [])
    ++ (if reportOnDisk w && !w.unlinkReportOk then [⟨.warning, .cleanupReportFailed⟩] else [])

/-- `detect_and_mask_secrets` (lines 26-97).  Empty or whitespace-only
input returns immediately (lines 35-37); an unavailable engine returns the
input (lines 42-44); `NamedTemporaryFile(delete=False)` creates the input
file before the write, and `temp_file` is assigned only after the write
succeeds (lines 50-52), so a failing write leaves the file on disk with
`temp_file = None` and the `finally` block deletes nothing; otherwise the
scan runs, masking is applied when findings are non-empty, and the
`finally` block deletes whichever of the two files exists, failures
logged.  The `except Exception` handler (lines 80-82) converts any
escaping exception into returning the input, so the embedded function is
total. -/
def detectAndMask (w : World) (d : Str) : DetectResult :=
  if d.isEmpty || (pyStrip d).isEmpty then
    ⟨d, false, false, none, [⟨.warning, .noDiffContent⟩]⟩
  else if !w.available then
    ⟨d, false, false, none, [⟨.warning, .gitleaksUnavailable⟩]⟩
  else if !w.writeOk then
    ⟨d, true, false, none, [⟨.error, .errorDuringDetection⟩]⟩
  else if (runGitleaksDetect w).findings.isEmpty then
    ⟨d, !w.unlinkTempOk, reportOnDisk w && !w.unlinkReportOk,
      some ⟨d.length, d.length, false, 0⟩,
      (runGitleaksDetect w).log ++ cleanupLog w⟩
  else
    let out := (applyFileBasedMasking w d (runGitleaksDetect w).findings).1
    ⟨out, !w.unlinkTempOk, reportOnDisk w && !w.unlinkReportOk,
      some ⟨d.length, out.length, containsSub out redactedLabel,
        countOccs out redactedLabel⟩,
      (runGitleaksDetect w).log
        ++ (applyFileBasedMasking w d (runGitleaksDetect w).findings).2
        ++ cleanupLog w⟩

/-! ## Basic lemmas about the string primitives -/

theorem startsW_nil_left (s : Str) : startsW [] s = true := by
  cases s <;> rfl

theorem startsW_cons_cons (p c : Char) (ps cs : Str) :
    startsW (p :: ps) (c :: cs) = (p == c && startsW ps cs) := rfl

theorem startsW_cons_iff (p c : Char) (ps cs : Str) :
    startsW (p :: ps) (c :: cs) = true ↔ p = c ∧ startsW ps cs = true := by
  rw [startsW_cons_cons]
  simp

theorem startsW_append_drop (pat : Str) :
    ∀ s : Str, startsW pat s = true → pat ++ s.drop pat.length = s := by
  induction pat with
  | nil => intro s _; simp
  | cons p ps ih =>
    intro s h
    cases s with
    | nil => simp [startsW] at h
    | cons c cs =>
      rw [startsW_cons_iff] at h
      obtain ⟨rfl, h2⟩ := h
      simpa using ih cs h2

theorem startsW_length_le {pat s : Str} (h : startsW pat s = true) :
    pat.length ≤ s.length := by
  conv_rhs => rw [← startsW_append_drop pat s h]
  simp

theorem containsSub_nil_pat (s : Str) : containsSub s [] = true := by
  cases s with
  | nil => rfl
  | cons c cs => simp [containsSub, startsW_nil_left]

theorem containsSub_tail {c : Char} {cs x : Str}
    (h : containsSub (c :: cs) x = false) : containsSub cs x = false := by
  rw [containsSub] at h
  exact (Bool.or_eq_false_iff.mp h).2

theorem containsSub_head {c : Char} {cs x : Str}
    (h : containsSub (c :: cs) x = false) : startsW x (c :: cs) = false := by
  rw [containsSub] at h
  exact (Bool.or_eq_false_iff.mp h).1

theorem containsSub_ne_nil {s x : Str} (h : containsSub s x = false) : x ≠ [] := by
  intro hx
  rw [hx, containsSub_nil_pat] at h
  simp at h

theorem containsSub_drop {s x : Str} (h : containsSub s x = false) :
    ∀ k : Nat, containsSub (s.drop k) x = false := by
  induction s with
  | nil => intro k; simpa using h
  | cons c cs ih =>
    intro k
    cases k with
    | zero => exact h
    | succ k => exact ih (containsSub_tail h) k

theorem containsSub_append {a b x : Str} (h : containsSub (a ++ b) x = true) :
    (∃ ch, ch ∈ x ∧ ch ∈ a) ∨ containsSub b x = true := by
  induction a with
  | nil => exact Or.inr (by simpa using h)
  | cons y a' ih =>
    rw [List.cons_append, containsSub, Bool.or_eq_true] at h
    cases h with
    | inl h =>
      cases x with
      | nil => exact Or.inr (containsSub_nil_pat b)
      | cons x0 x' =>
        rw [startsW_cons_iff] at h
        exact Or.inl ⟨x0, by simp, by simp [h.1]⟩
    | inr h =>
      cases ih h with
      | inl hmem =>
        obtain ⟨ch, hx, ha⟩ := hmem
        exact Or.inl ⟨ch, hx, by simp [ha]⟩
      | inr hb => exact Or.inr hb

theorem replaceAllGo_nil (n : Nat) (pat rep : Str) :
    replaceAllGo n [] pat rep = [] := by
  cases n <;> rfl

theorem countOccsGo_nil (n : Nat) (pat : Str) :
    countOccsGo n [] pat = 0 := by
  cases n <;> rfl

/-! ## Replacement cannot create new matches from disjoint characters

If a string `q` whose characters all avoid the replacement text `rep` is
not a prefix of `s`, then it is not a prefix of the replacement result
either; consequently a pattern whose characters avoid `rep` cannot occur
in the result (if it was the replaced pattern, or was absent before). -/

theorem startsW_replaceAllGo_false {pat rep : Str} (hrep : rep ≠ []) :
    ∀ (n : Nat) (s q : Str), s.length ≤ n →
      (∀ a ∈ q, a ∉ rep) → startsW q s = false →
      startsW q (replaceAllGo n s pat rep) = false := by
  intro n
  induction n with
  | zero =>
    intro s q hlen _ hfalse
    have hs : s = [] := List.length_eq_zero.mp (Nat.le_zero.mp hlen)
    subst hs
    exact hfalse
  | succ n ih =>
    intro s q hlen hq hfalse
    cases s with
    | nil =>
      rw [replaceAllGo_nil]
      exact hfalse
    | cons c cs =>
      simp only [replaceAllGo]
      split
      · -- a match of `pat` at the head: the result starts with `rep`
        cases q with
        | nil => rw [startsW_nil_left] at hfalse; simp at hfalse
        | cons a q' =>
          cases rep with
          | nil => exact absurd rfl hrep
          | cons b rep' =>
            rw [List.cons_append, startsW_cons_cons]
            have hab : (a == b) = false := by
              have hnot : a ∉ b :: rep' := hq a (by simp)
              have : a ≠ b := by intro h; exact hnot (by simp [h])
              simpa using this
            simp [hab]
      · -- no match at the head: the head character is kept
        cases q with
        | nil => rw [startsW_nil_left] at hfalse; simp at hfalse
        | cons a q' =>
          rw [startsW_cons_cons] at hfalse ⊢
          cases hac : a == c with
          | false => simp [hac]
          | true =>
            rw [hac, Bool.true_and] at hfalse
            rw [Bool.true_and]
            have hq' : ∀ b ∈ q', b ∉ rep := fun b hb => hq b (by simp [hb])
            have hlen' : cs.length ≤ n := by
              simpa using hlen
            exact ih cs q' hlen' hq' hfalse

theorem containsSub_replaceAllGo_false {pat rep : Str} (hrep : rep ≠ []) :
    ∀ (n : Nat) (s x : Str), s.length ≤ n →
      x ≠ [] → (∀ a ∈ x, a ∉ rep) →
      (x = pat ∨ containsSub s x = false) →
      containsSub (replaceAllGo n s pat rep) x = false := by
  intro n
  induction n with
  | zero =>
    intro s x hlen hx _ _
    have hs : s = [] := List.length_eq_zero.mp (Nat.le_zero.mp hlen)
    subst hs
    cases x with
    | nil => exact absurd rfl hx
    | cons y ys => rfl
  | succ n ih =>
    intro s x hlen hx hchar hd
    cases s with
    | nil =>
      rw [replaceAllGo_nil]
      cases x with
      | nil => exact absurd rfl hx
      | cons y ys => rfl
    | cons c cs =>
      simp only [replaceAllGo]
      split
      · -- match at head: result is rep ++ (recursive result)
        next hcond =>
        have hpat1 : 1 ≤ pat.length := by
          cases pat with
          | nil => simp at hcond
          | cons p ps => simp
        have hdroplen : ((c :: cs).drop pat.length).length ≤ n := by
          have h2 : ((c :: cs).drop pat.length).length = (c :: cs).length - pat.length :=
            List.length_drop _ _
          have h3 : (c :: cs).length = cs.length + 1 := by simp
          omega
        have hrec : containsSub (replaceAllGo n ((c :: cs).drop pat.length) pat rep) x = false := by
          apply ih _ x hdroplen hx hchar
          rcases hd with rfl | hcf
          · exact Or.inl rfl
          · exact Or.inr (containsSub_drop hcf _)
        by_contra hcontra
        rw [Bool.not_eq_false] at hcontra
        rcases containsSub_append hcontra with ⟨ch, hchx, hcha⟩ | hb
        · exact hchar ch hchx hcha
        · rw [hrec] at hb; simp at hb
      · -- no match at head: result is c :: (recursive result)
        next hcond =>
        have hlen' : cs.length ≤ n := by simpa using hlen
        rw [containsSub]
        refine Bool.or_eq_false_iff.mpr ⟨?_, ?_⟩
        · cases x with
          | nil => exact absurd rfl hx
          | cons a x' =>
            rw [startsW_cons_cons]
            cases hac : a == c with
            | false => simp
            | true =>
              rw [Bool.true_and]
              have hsw : startsW x' cs = false := by
                rcases hd with rfl | hcf
                · -- x = pat, so pat is non-empty and the branch condition
                  -- yields that pat does not start at this position
                  have hne : (!(a :: x').isEmpty && startsW (a :: x') (c :: cs)) = false :=
                    Bool.not_eq_true _ ▸ Bool.of_not_eq_true hcond
                  rw [List.isEmpty_cons, Bool.not_false, Bool.true_and] at hne
                  rw [startsW_cons_cons, hac, Bool.true_and] at hne
                  exact hne
                · have := containsSub_head hcf
                  rw [startsW_cons_cons, hac, Bool.true_and] at this
                  exact this
              have hx'chars : ∀ b ∈ x', b ∉ rep := fun b hb => hchar b (by simp [hb])
              exact startsW_replaceAllGo_false hrep n cs x' hlen' hx'chars hsw
        · apply ih cs x hlen' hx hchar
          rcases hd with rfl | hcf
          · exact Or.inl rfl
          · exact Or.inr (containsSub_tail hcf)

theorem replaceAllGo_length {pat rep : Str} :
    ∀ (n : Nat) (s : Str), s.length ≤ n →
      ((replaceAllGo n s pat rep).length : Int)
        = (s.length : Int)
          + (countOccsGo n s pat : Int) * ((rep.length : Int) - (pat.length : Int)) := by
  intro n
  induction n with
  | zero =>
    intro s hlen
    have hs : s = [] := List.length_eq_zero.mp (Nat.le_zero.mp hlen)
    subst hs
    simp [replaceAllGo, countOccsGo]
  | succ n ih =>
    intro s hlen
    cases s with
    | nil => simp [replaceAllGo_nil, countOccsGo_nil]
    | cons c cs =>
      simp only [replaceAllGo, countOccsGo]
      split
      · next hcond =>
        have hsw : startsW pat (c :: cs) = true := by
          have := hcond
          simp only [Bool.and_eq_true] at this
          exact this.2
        have hpat1 : 1 ≤ pat.length := by
          cases pat with
          | nil => simp at hcond
          | cons p ps => simp
        have hple : pat.length ≤ (c :: cs).length := startsW_length_le hsw
        have hdl : ((c :: cs).drop pat.length).length = (c :: cs).length - pat.length :=
          List.length_drop _ _
        have hlc : (c :: cs).length = cs.length + 1 := by simp
        have hdroplen : ((c :: cs).drop pat.length).length ≤ n := by omega
        have hrec := ih _ hdroplen
        have hcast : (((c :: cs).drop pat.length).length : Int)
            = ((c :: cs).length : Int) - (pat.length : Int) := by omega
        rw [List.length_append]
        push_cast
        rw [hrec, hcast]
        ring
      · next hcond =>
        have hlen' : cs.length ≤ n := by simpa using hlen
        have hrec := ih cs hlen'
        simp only [List.length_cons]
        push_cast
        rw [hrec]
        ring

theorem countOccsGo_eq_zero {pat : Str} :
    ∀ (n : Nat) (s : Str), containsSub s pat = false → countOccsGo n s pat = 0 := by
  intro n
  induction n with
  | zero => intro s _; rfl
  | succ n ih =>
    intro s h
    cases s with
    | nil => rw [countOccsGo_nil]
    | cons c cs =>
      simp only [countOccsGo]
      split
      · next hcond =>
        have hsw : startsW pat (c :: cs) = true := by
          simp only [Bool.and_eq_true] at hcond
          exact hcond.2
        rw [containsSub_head h] at hsw
        simp at hsw
      · exact ih cs (containsSub_tail h)

/-! ## Wrapper-level corollaries -/

theorem replaceAll_not_contains {pat rep : Str} (hpat : pat ≠ []) (hrep : rep ≠ [])
    (hdisj : ∀ a ∈ pat, a ∉ rep) (s : Str) :
    containsSub (replaceAll s pat rep) pat = false :=
  containsSub_replaceAllGo_false hrep s.length s pat le_rfl hpat hdisj (Or.inl rfl)

theorem replaceAll_preserves_absent {x rep : Str} (hrep : rep ≠ [])
    (hchar : ∀ a ∈ x, a ∉ rep) (s pat : Str) (h : containsSub s x = false) :
    containsSub (replaceAll s pat rep) x = false :=
  containsSub_replaceAllGo_false hrep s.length s x le_rfl (containsSub_ne_nil h) hchar (Or.inr h)

theorem replaceAll_length (s pat rep : Str) :
    ((replaceAll s pat rep).length : Int)
      = (s.length : Int)
        + (countOccs s pat : Int) * ((rep.length : Int) - (pat.length : Int)) :=
  replaceAllGo_length s.length s le_rfl

theorem countOccs_eq_zero {s pat : Str} (h : containsSub s pat = false) :
    countOccs s pat = 0 :=
  countOccsGo_eq_zero s.length s h

/-! ## Lemmas about the masking loop -/

theorem placeholder_ne_nil : placeholder ≠ [] := by decide

theorem pyGuard_ne_nil {s : Str} (h : pyGuard s = true) : s ≠ [] := by
  intro hs
  subst hs
  simp [pyGuard] at h

theorem pyGuard_false_of_all_space {s : Str} (h : ∀ ch ∈ s, isPySpace ch = true) :
    pyGuard s = false := by
  have hdrop : s.dropWhile isPySpace = [] := List.dropWhile_eq_nil_iff.mpr h
  simp [pyGuard, pyStrip, hdrop]

/-- Once a string with no character in common with the placeholder is
absent from the content, the remaining masking steps keep it absent. -/
theorem maskList_masked_absent {x : Str}
    (hchar : ∀ a ∈ x, a ∉ placeholder) :
    ∀ (fs : List RawFinding) (c : Str), containsSub c x = false →
      containsSub (maskList c fs).masked x = false := by
  intro fs
  induction fs with
  | nil => intro c h; exact h
  | cons f fs ih =>
    intro c h
    simp only [maskList]
    split
    · exact ih _ (replaceAll_preserves_absent placeholder_ne_nil hchar c _ h)
    · exact ih c h

/-- Core masking guarantee: the secret value of any non-skipped finding in
the list is absent from the final masked content, provided it has no
character in common with the placeholder. -/
theorem maskList_member_absent (f : RawFinding)
    (hg : pyGuard (secretValueOf f) = true)
    (hchar : ∀ a ∈ secretValueOf f, a ∉ placeholder) :
    ∀ (fs : List RawFinding) (c : Str), f ∈ fs →
      containsSub (maskList c fs).masked (secretValueOf f) = false := by
  intro fs
  induction fs with
  | nil => intro c h; cases h
  | cons g fs ih =>
    intro c hmem
    rcases List.mem_cons.mp hmem with rfl | hmem'
    · simp only [maskList]
      rw [if_pos hg]
      exact maskList_masked_absent hchar fs _
        (replaceAll_not_contains (pyGuard_ne_nil hg) placeholder_ne_nil hchar c)
    · simp only [maskList]
      split
      · exact ih _ hmem'
      · exact ih c hmem'

/-- Processing a concatenated finding list processes the first part, then
the second on the intermediate content, concatenating the reports. -/
theorem maskList_append :
    ∀ (xs ys : List RawFinding) (c : Str),
      maskList c (xs ++ ys)
        = ⟨(maskList (maskList c xs).masked ys).masked,
           (maskList c xs).total_replacements
             + (maskList (maskList c xs).masked ys).total_replacements,
           (maskList c xs).redacted ++ (maskList (maskList c xs).masked ys).redacted⟩ := by
  intro xs
  induction xs with
  | nil =>
    intro ys c
    simp only [List.nil_append]
    rcases hys : maskList c ys with ⟨m, t, r⟩
    simp [maskList, hys]
  | cons f xs ih =>
    intro ys c
    simp only [List.cons_append, maskList]
    split
    · simp only [List.append_eq]
      rw [ih]
      simp [Nat.add_assoc]
    · exact ih ys c

/-! ## Claim C1 -/

/-- C1 counterexample: the claim "every non-empty secret value occurs zero
times in the masked output unless it is a substring of the placeholder"
fails.  For diff `"D]QQ"` and one finding with secret `"D]Q"`, the
substitution produces `"[SENSITIVE_DATA_REMOVED]Q"`, in which `"D]Q"`
re-appears across the placeholder boundary although it is non-empty and
not a substring of the placeholder. -/
theorem c1_counterexample :
    ("D]Q".data : Str) ≠ []
      ∧ containsSub placeholder "D]Q".data = false
      ∧ countOccs
          (maskList "D]QQ".data [({ Secret := some "D]Q".data } : RawFinding)]).masked
          "D]Q".data = 1 := by
  decide

/-- C1 (amended): every secret value that survives the skip filter
(non-empty and not whitespace-only) and has no character in common with
the placeholder token occurs zero times in the masked output; a value
sharing characters with the placeholder may survive by spanning a
placeholder boundary even when it is not a substring of the placeholder. -/
theorem c1_masking_removes_disjoint_secrets
    (content : Str) (fs : List RawFinding) (f : RawFinding)
    (hmem : f ∈ fs)
    (hguard : pyGuard (secretValueOf f) = true)
    (hdisj : ∀ ch ∈ secretValueOf f, ch ∉ placeholder) :
    countOccs (maskList content fs).masked (secretValueOf f) = 0 :=
  countOccs_eq_zero (maskList_member_absent f hguard hdisj fs content hmem)

/-- Witness for C1: a concrete diff and finding on which the amended
theorem applies and evaluates. -/
theorem c1_witness :
    countOccs
        (maskList "key=xyz123;".data [({ Secret := some "xyz123".data } : RawFinding)]).masked
        (secretValueOf ({ Secret := some "xyz123".data } : RawFinding)) = 0 :=
  c1_masking_removes_disjoint_secrets "key=xyz123;".data
    [({ Secret := some "xyz123".data } : RawFinding)]
    ({ Secret := some "xyz123".data } : RawFinding)
    (by decide) (by decide) (by decide)

/-! ## Claim C2 -/

/-- C2 counterexample: the claim "on any internal failure the input diff is
returned unchanged" fails.  When findings exist but the masking step's
file read raises and the fallback re-read also raises (lines 271-279 of
the source), the call returns the empty string, not the input. -/
theorem c2_counterexample :
    (detectAndMask
        ⟨true, true, none,
          .valid [({ Secret := some "AKIAZZ".data } : RawFinding)],
          false, false, true, true, 0⟩
        "key AKIAZZ".data).output = []
      ∧ ("key AKIAZZ".data : Str) ≠ [] := by
  decide

/-- C2 (amended): `detect_and_mask_secrets` never raises past the
subsystem boundary (every branch of the embedded call yields a result; the
source's catch-all handler at lines 80-82 maps any escaping exception to
the input).  On every path the output is the input unchanged, except for
the masking path: when the masking file read succeeds the output is the
masked content, and when both the read and the fallback re-read fail the
output is the empty string. -/
theorem c2_failopen_characterization (w : World) (d : Str) :
    (detectAndMask w d).output = d
      ∨ ((detectAndMask w d).output
            = (maskList d (runGitleaksDetect w).findings).masked
          ∧ w.maskReadOk = true)
      ∨ ((detectAndMask w d).output = []
          ∧ w.maskReadOk = false ∧ w.maskRereadOk = false) := by
  unfold detectAndMask
  split
  · exact Or.inl rfl
  · split
    · exact Or.inl rfl
    · split
      · exact Or.inl rfl
      · split
        · exact Or.inl rfl
        · cases hr : w.maskReadOk with
          | true =>
            refine Or.inr (Or.inl ⟨?_, rfl⟩)
            simp [applyFileBasedMasking, hr]
          | false =>
            cases hrr : w.maskRereadOk with
            | true =>
              refine Or.inl ?_
              simp [applyFileBasedMasking, hr, hrr]
            | false =>
              refine Or.inr (Or.inr ⟨?_, rfl, rfl⟩)
              simp [applyFileBasedMasking, hr, hrr]

/-! ## Claim C3 -/

/-- C3 (code bug evidence): for a diff containing the AWS-style literal
exactly twice and one finding with that secret value, the masked output
contains the actually-substituted placeholder exactly twice and the
literal zero times, but the logged summary reports `Secrets detected: No`
and `Redaction count: 0`, because lines 67-68 of the source count
occurrences of `'[REDACTED_SECRET]'` while line 236 substitutes
`'[SENSITIVE_DATA_REMOVED]'`.  The claim (and the source's own docstring,
line 33) expects a redaction count of 2. -/
theorem c3_placeholder_mismatch :
    countOccs "a AKIA1234567890ABCD b AKIA1234567890ABCD c".data
        "AKIA1234567890ABCD".data = 2
      ∧ countOccs
          (detectAndMask
            ⟨true, true, none,
              .valid [({ Secret := some "AKIA1234567890ABCD".data } : RawFinding)],
              true, true, true, true, 0⟩
            "a AKIA1234567890ABCD b AKIA1234567890ABCD c".data).output
          placeholder = 2
      ∧ countOccs
          (detectAndMask
            ⟨true, true, none,
              .valid [({ Secret := some "AKIA1234567890ABCD".data } : RawFinding)],
              true, true, true, true, 0⟩
            "a AKIA1234567890ABCD b AKIA1234567890ABCD c".data).output
          "AKIA1234567890ABCD".data = 0
      ∧ (detectAndMask
            ⟨true, true, none,
              .valid [({ Secret := some "AKIA1234567890ABCD".data } : RawFinding)],
              true, true, true, true, 0⟩
            "a AKIA1234567890ABCD b AKIA1234567890ABCD c".data).summary
          = some ⟨43, 55, false, 0⟩ := by
  decide

/-! ## Claim C4 -/

/-- C4 (code bug evidence): when the write into the freshly created
temporary input file raises (the world's `writeOk = false`), the variable
`temp_file` is never assigned (lines 50-52 of the source), so the
`finally` block deletes nothing and the input file is left on disk after
the call, contradicting the no-artifact-leakage guarantee; the call still
returns the input unchanged. -/
theorem c4_temp_file_leak_on_write_failure :
    (detectAndMask ⟨true, false, none, .absent, true, true, true, true, 0⟩
        "k".data).tempExists = true
      ∧ (detectAndMask ⟨true, false, none, .absent, true, true, true, true, 0⟩
          "k".data).output = "k".data := by
  decide

/-! ## Claim C5 -/

/-- C5 counterexample: the claim that normalization of the match text
falls back to the lowercase key fails.  A record carrying only the
lowercase `match` key (field `match_lc`) normalizes to the empty-string
default, ignoring the key (line 170 of the source reads only `'Match'`). -/
theorem c5_counterexample :
    matchOf ({ match_lc := some "ctx".data } : RawFinding) = []
      ∧ ({ match_lc := some "ctx".data } : RawFinding).match_lc = some "ctx".data
      ∧ ("ctx".data : Str) ≠ [] := by
  decide

/-- C5 (amended): normalization of rule identifier, source file, secret
literal and line number tries the capitalized key and falls back to the
lowercase key, defaulting to `"unknown"` for rule and file, to the empty
string for the secret value and to the literal `'unknown'` for the line;
the match text is read from the capitalized key only, defaulting to the
empty string.  No record is dropped for missing fields: the scan returns
the decoded list as is. -/
theorem c5_normalization_fallbacks (f : RawFinding) :
    (∀ v, f.RuleID = some v → ruleOf f = v)
      ∧ (f.RuleID = none → ∀ v, f.rule = some v → ruleOf f = v)
      ∧ (f.RuleID = none → f.rule = none → ruleOf f = unknownStr)
      ∧ (∀ v, f.File = some v → fileOf f = v)
      ∧ (f.File = none → ∀ v, f.file = some v → fileOf f = v)
      ∧ (f.File = none → f.file = none → fileOf f = unknownStr)
      ∧ (∀ v, f.Secret = some v → secretValueOf f = v)
      ∧ (f.Secret = none → ∀ v, f.secret = some v → secretValueOf f = v)
      ∧ (f.Secret = none → f.secret = none → secretValueOf f = [])
      ∧ (∀ n, f.StartLine = some n → lineOf f = .ofInt n)
      ∧ (f.StartLine = none → ∀ n, f.line = some n → lineOf f = .ofInt n)
      ∧ (f.StartLine = none → f.line = none → lineOf f = .unknownVal)
      ∧ (∀ v, f.Match = some v → matchOf f = v)
      ∧ (f.Match = none → matchOf f = [])
      ∧ (∀ (w : World) (fs : List RawFinding), w.scanRaise = none →
          w.report = .valid fs → (runGitleaksDetect w).findings = fs) := by
  refine ⟨?_, ?_, ?_, ?_, ?_, ?_, ?_, ?_, ?_, ?_, ?_, ?_, ?_, ?_, ?_⟩
  · intro v h; simp [ruleOf, h]
  · intro h1 v h2; simp [ruleOf, h1, h2]
  · intro h1 h2; simp [ruleOf, h1, h2]
  · intro v h; simp [fileOf, h]
  · intro h1 v h2; simp [fileOf, h1, h2]
  · intro h1 h2; simp [fileOf, h1, h2]
  · intro v h; simp [secretValueOf, h]
  · intro h1 v h2; simp [secretValueOf, h1, h2]
  · intro h1 h2; simp [secretValueOf, h1, h2]
  · intro n h; simp [lineOf, h]
  · intro h1 n h2; simp [lineOf, h1, h2]
  · intro h1 h2; simp [lineOf, h1, h2]
  · intro v h; simp [matchOf, h]
  · intro h; simp [matchOf, h]
  · intro w fs h1 h2
    unfold runGitleaksDetect
    rw [h1, h2]
    cases fs <;> simp

/-- Witness for C5: concrete records exercising the fallback, the default,
and the capitalized-only match key. -/
theorem c5_witness :
    ruleOf ({ rule := some "r1".data } : RawFinding) = "r1".data
      ∧ secretValueOf ({ } : RawFinding) = []
      ∧ matchOf ({ Match := some "m".data, match_lc := some "x".data } : RawFinding)
          = "m".data :=
  ⟨(c5_normalization_fallbacks ({ rule := some "r1".data } : RawFinding)).2.1
      rfl "r1".data rfl,
    (c5_normalization_fallbacks ({ } : RawFinding)).2.2.2.2.2.2.2.2.1 rfl rfl,
    (c5_normalization_fallbacks
        ({ Match := some "m".data, match_lc := some "x".data } : RawFinding)).2.2.2.2.2.2.2.2.2.2.2.2.1
      "m".data rfl⟩

/-! ## Claim C6 -/

/-- C6: for every content string and every finding list whose secret
values are all empty or whitespace-only (including the empty list), the
masking step returns the content exactly unchanged with an empty
redaction report and zero replacements. -/
theorem c6_mask_noop_on_skippable :
    ∀ (content : Str) (fs : List RawFinding),
      (∀ f ∈ fs, ∀ ch ∈ secretValueOf f, isPySpace ch = true) →
      maskList content fs = ⟨content, 0, []⟩ := by
  intro content fs
  induction fs with
  | nil => intro _; rfl
  | cons f fs ih =>
    intro h
    have hfalse : pyGuard (secretValueOf f) = false :=
      pyGuard_false_of_all_space (h f (by simp))
    simp only [maskList]
    rw [if_neg (by simp [hfalse])]
    exact ih (fun g hg ch hch => h g (by simp [hg]) ch hch)

/-- Witness for C6: one whitespace-only finding on concrete content. -/
theorem c6_witness :
    maskList "abc".data [({ Secret := some " ".data } : RawFinding)]
      = ⟨"abc".data, 0, []⟩ :=
  c6_mask_noop_on_skippable "abc".data
    [({ Secret := some " ".data } : RawFinding)] (by decide)

/-! ## Claim C7 -/

/-- C7: the length of the masked output minus the length of the input
equals the net character delta of all substitutions performed — the sum
over the redaction report (one entry per non-skipped finding) of the
occurrences counted at substitution time multiplied by the placeholder
length minus that secret value's length. -/
theorem c7_mask_length_delta :
    ∀ (fs : List RawFinding) (content : Str),
      ((maskList content fs).masked.length : Int) - (content.length : Int)
        = ((maskList content fs).redacted.map
            (fun e => (e.occurrences : Int)
              * ((placeholder.length : Int) - (e.original.length : Int)))).sum := by
  intro fs
  induction fs with
  | nil => intro content; simp [maskList]
  | cons f fs ih =>
    intro content
    simp only [maskList]
    split
    · have hlen := replaceAll_length content (secretValueOf f) placeholder
      have hih := ih (replaceAll content (secretValueOf f) placeholder)
      simp only [List.map_cons, List.sum_cons]
      linarith [hih, hlen]
    · exact ih content

/-! ## Claim C8 -/

/-- C8 counterexample: the claim that a duplicated secret value leads to
`occurrences: 0` for the second finding fails.  With content `"D]QQ"` and
the finding for `"D]Q"` listed twice, the first substitution re-creates
the value across the placeholder boundary, so the second entry records
one occurrence, not zero. -/
theorem c8_counterexample :
    (maskList "D]QQ".data
        [({ Secret := some "D]Q".data } : RawFinding),
          ({ Secret := some "D]Q".data } : RawFinding)]).redacted.map
        (fun e => e.occurrences) = [1, 1] := by
  decide

/-- C8 (amended): if the same non-skipped literal secret value is reported
by two different findings and the value has no character in common with
the placeholder, then when the second finding is processed it finds zero
remaining occurrences in the current content, and its entry in the
redacted list records zero occurrences. -/
theorem c8_duplicate_second_zero (c : Str) (l1 l2 l3 : List RawFinding)
    (f g : RawFinding)
    (heq : secretValueOf g = secretValueOf f)
    (hguard : pyGuard (secretValueOf f) = true)
    (hdisj : ∀ ch ∈ secretValueOf f, ch ∉ placeholder) :
    countOccs (maskList c (l1 ++ f :: l2)).masked (secretValueOf g) = 0
      ∧ ∃ rest, (maskList c (l1 ++ f :: l2 ++ g :: l3)).redacted
          = (maskList c (l1 ++ f :: l2)).redacted
              ++ ⟨ruleOf g, secretValueOf g, 0, redactedLabel⟩ :: rest := by
  have hmem : f ∈ l1 ++ f :: l2 := by simp
  have habs : containsSub (maskList c (l1 ++ f :: l2)).masked (secretValueOf f) = false :=
    maskList_member_absent f hguard hdisj _ c hmem
  have hcount : countOccs (maskList c (l1 ++ f :: l2)).masked (secretValueOf g) = 0 := by
    rw [heq]
    exact countOccs_eq_zero habs
  refine ⟨hcount, ?_⟩
  have hgg : pyGuard (secretValueOf g) = true := by rw [heq]; exact hguard
  have hassoc : l1 ++ f :: l2 ++ g :: l3 = (l1 ++ f :: l2) ++ (g :: l3) := by simp
  rw [hassoc, maskList_append]
  refine ⟨(maskList
      (replaceAll (maskList c (l1 ++ f :: l2)).masked (secretValueOf g) placeholder)
      l3).redacted, ?_⟩
  simp only [maskList]
  rw [if_pos hgg, hcount]

/-- Witness for C8: the duplicate-finding theorem applied to a concrete
content and finding pair whose secret shares no character with the
placeholder. -/
theorem c8_witness :
    countOccs
        (maskList "xyz123 xyz123".data
          ([] ++ ({ Secret := some "xyz123".data } : RawFinding) :: [])).masked
        (secretValueOf ({ Secret := some "xyz123".data } : RawFinding)) = 0 :=
  (c8_duplicate_second_zero "xyz123 xyz123".data [] [] []
      ({ Secret := some "xyz123".data } : RawFinding)
      ({ Secret := some "xyz123".data } : RawFinding)
      rfl (by decide) (by decide)).1

/-! ## Claim C9 -/

/-- C9: if the detection subprocess exceeds its 30-second timeout, the
scan returns the empty findings list paired with the report path allocated
at entry, logs a WARNING, and never raises (the embedded function yields
this result totally). -/
theorem c9_scan_timeout_failopen (w : World)
    (h : w.scanRaise = some ScanRaise.timeoutExpired) :
    runGitleaksDetect w
        = ⟨[], w.reportPathId, [⟨LogLevel.warning, LogSite.scanTimedOut⟩]⟩
      ∧ gitleaksDetectTimeoutSeconds = 30 := by
  unfold runGitleaksDetect
  rw [h]
  exact ⟨rfl, rfl⟩

/-- Witness for C9: a concrete world whose detect subprocess times out. -/
theorem c9_witness :
    runGitleaksDetect ⟨true, true, some .timeoutExpired, .absent, true, true, true, true, 5⟩
        = ⟨[], 5, [⟨LogLevel.warning, LogSite.scanTimedOut⟩]⟩
      ∧ gitleaksDetectTimeoutSeconds = 30 :=
  c9_scan_timeout_failopen
    ⟨true, true, some .timeoutExpired, .absent, true, true, true, true, 5⟩ rfl

/-! ## Claim C10 -/

/-- C10: on every exit path of `_run_gitleaks_detect` — findings parsed,
empty report, absent report, zero-length report, JSON parse failure,
subprocess timeout, or any other exception — the second component of the
returned pair is exactly the report path allocated at entry. -/
theorem c10_report_path_invariant (w : World) :
    (runGitleaksDetect w).reportPath = w.reportPathId := by
  obtain ⟨av, wo, sr, rep, mr, mrr, u1, u2, rp⟩ := w
  cases sr with
  | none => cases rep <;> rfl
  | some s => cases s <;> rfl

end SecretDetector
